import Mathlib

/-!
Shallow embedding of the bf-rust interpreter (src/main.rs).

The program is a compile-then-execute Brainfuck interpreter:
lexing (impl From<char> for BfToken + filter_map), fusion of successive
equal-variant tokens (the fold seeded with vec![BfToken::NAN]), bracket
resolution (BfToken::find_jumps) and a while-loop executor (parse).

Machine integers are modelled as Nat/Int with explicit reductions modulo
2^8 where the Rust code uses u8 wrapping arithmetic or `as u8` casts.
The Rust executor's state (stack, pointer, idx, input, out, iter) becomes
an explicit state record; a Vec is a List with index 0 at the head, except
that the reversed input Vec (popped at its back) is modelled with its pop
end at the head.  Panics of the bracket resolver become Except errors.
-/

/-- Tokens of the language, from the Rust enum BfToken (src/main.rs lines 8-17). -/
inductive BfToken where
  | CEL (n : Int)
  | MOV (n : Int)
  | JUM
  | BAC
  | ACC
  | OUT
  | NAN
deriving DecidableEq

/-- The custom PartialEq for BfToken (src/main.rs lines 19-28): two tokens are
"equal" iff both are CEL or both are MOV; every other pair, even two
identical control or IO tokens, compares unequal. -/
def bfeq : BfToken → BfToken → Bool
  | .CEL _, .CEL _ => true
  | .MOV _, .MOV _ => true
  | _, _ => false

/-- The AddAssign impl for BfToken (src/main.rs lines 77-85): adds the payloads
of two CELs or two MOVs, leaves the left token unchanged otherwise. -/
def addToken : BfToken → BfToken → BfToken
  | .CEL a, .CEL b => .CEL (a + b)
  | .MOV a, .MOV b => .MOV (a + b)
  | t, _ => t

/-- The From<char> impl (src/main.rs lines 31-45): maps the eight command
characters to tokens and everything else to NAN. -/
def charToToken (c : Char) : BfToken :=
  if c = '>' then .MOV 1
  else if c = '<' then .MOV (-1)
  else if c = '+' then .CEL 1
  else if c = '-' then .CEL (-1)
  else if c = '.' then .OUT
  else if c = ',' then .ACC
  else if c = '[' then .JUM
  else if c = ']' then .BAC
  else .NAN

/-- The lexing stage of BfToken::from_source (src/main.rs lines 117-123):
chars().filter_map dropping the NAN tokens. -/
def lexTokens (code : String) : List BfToken :=
  code.toList.filterMap fun c =>
    match charToToken c with
    | .NAN => none
    | t => some t

/-- One step of the Rust fusion fold (src/main.rs lines 126-134), on the
accumulator held in reverse (head = last pushed element of the Vec): if the
last element bfeq-matches the next token it absorbs it via AddAssign,
otherwise the next token is pushed. -/
def fuseRevStep (acc : List BfToken) (next : BfToken) : List BfToken :=
  match acc with
  | last :: rest => if bfeq last next then addToken last next :: rest else next :: last :: rest
  | [] => [next]

/-- The fusion stage of BfToken::from_source (src/main.rs lines 126-134): the
fold over the lexed tokens seeded with vec![BfToken::NAN]; the NAN seed is
kept in the resulting stream. -/
def fuse (ts : List BfToken) : List BfToken :=
  (ts.foldl fuseRevStep [BfToken.NAN]).reverse

/-- Structural companion of the fusion fold: merges a pending token into the
following list. -/
def fuseAux : BfToken → List BfToken → List BfToken
  | last, [] => [last]
  | last, t :: ts => if bfeq last t then fuseAux (addToken last t) ts else last :: fuseAux t ts

/-- Structural companion of fuse without the NAN seed. -/
def fuseCore : List BfToken → List BfToken
  | [] => []
  | t :: ts => fuseAux t ts

/-- Failures of bracket resolution.  In the Rust source both cases panic
(src/main.rs lines 96-98 and 108); unmatchedLoopEnd carries the index from
the panic message "Unopened bracket at idx", while the assert for the
unclosed case carries no data, so the embedding records the pending
LoopStart stack (in push order) at the failure point so that the spec's
statements about reported indices can be compared with the code. -/
inductive JumpError where
  | unmatchedLoopEnd (idx : Nat)
  | unclosedLoop (idxs : List Nat)
deriving DecidableEq

deriving instance DecidableEq for Except

/-- Worker for BfToken::find_jumps (src/main.rs lines 88-111): walks the
remaining tokens carrying the current index, the stack of pending JUM
indices (head = top) and the jumps vector (initialised to zeros). -/
def findJumpsAux (toks : List BfToken) (idx : Nat) (queue : List Nat) (jumps : List Nat) :
    Except JumpError (List Nat) :=
  match toks with
  | [] => if queue.isEmpty then .ok jumps else .error (.unclosedLoop queue.reverse)
  | t :: rest =>
    match t with
    | .JUM => findJumpsAux rest (idx + 1) (idx :: queue) jumps
    | .BAC =>
      match queue with
      | [] => .error (.unmatchedLoopEnd idx)
      | temp :: queueRest =>
        findJumpsAux rest (idx + 1) queueRest ((jumps.set temp idx).set idx temp)
    | _ => findJumpsAux rest (idx + 1) queue jumps

/-- BfToken::find_jumps (src/main.rs lines 88-111). -/
def find_jumps (toks : List BfToken) : Except JumpError (List Nat) :=
  findJumpsAux toks 0 [] (List.replicate toks.length 0)

/-- BfToken::from_source (src/main.rs lines 114-141): lex, fuse, resolve
brackets; returns the token stream together with the bracket-resolution
outcome. -/
def from_source (code : String) : List BfToken × Except JumpError (List Nat) :=
  (fuse (lexTokens code), find_jumps (fuse (lexTokens code)))

/-- The MAX_ITER constant (src/main.rs line 5). -/
def MAX_ITER : Nat := 1000000000

/-- The Rust cast n as u8 for a non-negative isize, i.e. reduction mod 2^8. -/
def asU8 (n : Int) : Nat := (n % 256).toNat

/-- Effect of a CEL(n) instruction on the current cell byte (src/main.rs lines
182-188): wrapping_add(n as u8) when n > 0, wrapping_sub((-n) as u8)
otherwise. -/
def applyCel (n : Int) (v : Nat) : Nat :=
  if 0 < n then (v + asU8 n) % 256
  else (v + 256 - asU8 (-n)) % 256

/-- The executor state of parse (src/main.rs lines 144-205): the tape (stack),
the pointer, the instruction index, the pending input bytes (head = next
byte to be consumed, matching the reversed Vec popped at its back), the
output bytes and the iteration counter. -/
structure BfState where
  stack : List Nat
  pointer : Nat
  idx : Nat
  input : List Nat
  out : List Nat
  iter : Nat
deriving DecidableEq

/-- The initial executor state (src/main.rs lines 146-161). -/
def initState (input : List Nat) : BfState :=
  { stack := [0], pointer := 0, idx := 0, input := input, out := [], iter := 0 }

/-- Effect of one token on the state, before the unconditional idx/iter
increments: the match statement of the executor loop (src/main.rs lines
163-202). -/
def execTok (jumps : List Nat) (t : BfToken) (s : BfState) : BfState :=
  match t with
  | .MOV n =>
    if 0 < n then
      let m := n.toNat
      let stack := if s.stack.length ≤ s.pointer + m
        then s.stack ++ List.replicate m 0 else s.stack
      { s with stack := stack, pointer := s.pointer + m }
    else
      let m := n.natAbs
      if m ≤ s.pointer then { s with pointer := s.pointer - m }
      else { s with stack := List.replicate (m - s.pointer) 0 ++ s.stack }
  | .CEL n => { s with stack := s.stack.set s.pointer (applyCel n (s.stack.getD s.pointer 0)) }
  | .JUM => if s.stack.getD s.pointer 0 = 0 then { s with idx := jumps.getD s.idx 0 } else s
  | .BAC => if s.stack.getD s.pointer 0 ≠ 0 then { s with idx := jumps.getD s.idx 0 } else s
  | .ACC => { s with stack := s.stack.set s.pointer (s.input.headD 0), input := s.input.tail }
  | .OUT => { s with out := s.out ++ [s.stack.getD s.pointer 0] }
  | .NAN => s

/-- One iteration of the executor while loop (src/main.rs lines 162-205):
apply the current token, then increment idx and iter unconditionally. -/
def step (toks : List BfToken) (jumps : List Nat) (s : BfState) : BfState :=
  let s1 := execTok jumps (toks.getD s.idx .NAN) s
  { s1 with idx := s1.idx + 1, iter := s1.iter + 1 }

/-- The executor while loop (src/main.rs lines 162-205), fuel-indexed: keeps
stepping while idx < tokens.len(). -/
def run (toks : List BfToken) (jumps : List Nat) : Nat → BfState → BfState
  | 0, s => s
  | fuel + 1, s => if s.idx < toks.length then run toks jumps fuel (step toks jumps s) else s

/-- Vec::contains as invoked at src/main.rs line 153: an existence check using
the custom PartialEq. -/
def bfContains (ts : List BfToken) (x : BfToken) : Bool :=
  ts.any fun y => bfeq y x

/-- The input-collection decision of parse (src/main.rs lines 152-157): the
input bytes are handed to the executor only when the contains check fires;
otherwise the executor runs with an empty input queue. -/
def inputUsed (ts : List BfToken) (provided : List Nat) : List Nat :=
  if bfContains ts .ACC then provided else []

/-! ### List helpers -/

/-- Dropping one more element after a drop that exposed a cons. -/
theorem drop_succ_of_drop_cons {α : Type} {l : List α} {i : Nat} {a : α} {r : List α}
    (h : l.drop i = a :: r) : l.drop (i + 1) = r := by
  have h1 : (l.drop i).drop 1 = l.drop (i + 1) := List.drop_drop 1 i l
  rw [h] at h1
  simpa using h1.symm

/-- The element exposed by a drop is the element at that index. -/
theorem getD_of_drop_cons {α : Type} {l : List α} {i : Nat} {a : α} {r : List α}
    (h : l.drop i = a :: r) (d : α) : l.getD i d = a := by
  have h1 : l[i]? = (l.drop i)[0]? := by
    rw [List.getElem?_drop]
    norm_num
  rw [h] at h1
  simp [List.getD_eq_getElem?_getD, h1]

/-- A drop that exposes a cons happens strictly inside the list. -/
theorem lt_length_of_drop_cons {α : Type} {l : List α} {i : Nat} {a : α} {r : List α}
    (h : l.drop i = a :: r) : i < l.length := by
  have h1 : (l.drop i).length = l.length - i := List.length_drop i l
  rw [h] at h1
  simp at h1
  omega

/-! ### Cell arithmetic (CEL) -/

/-- The two wrapping branches of the CEL case compute addition modulo 256. -/
theorem applyCel_mod (n : Int) (v : Nat) :
    applyCel n v = (((v : Int) + n) % 256).toNat := by
  unfold applyCel asU8
  split <;> omega

/-- A positive unit CEL step. -/
theorem applyCel_one (v : Nat) : applyCel 1 v = (v + 1) % 256 := by
  unfold applyCel asU8
  norm_num

/-- A negative unit CEL step. -/
theorem applyCel_neg_one (v : Nat) : applyCel (-1) v = (v + 255) % 256 := by
  unfold applyCel asU8
  norm_num

/-- Iterating the unit increment. -/
theorem applyCel_one_iter (k v : Nat) (h : v < 256) :
    (fun x => applyCel 1 x)^[k] v = (v + k) % 256 := by
  induction k generalizing v with
  | zero => simpa using (Nat.mod_eq_of_lt h).symm
  | succ k ih =>
    rw [Function.iterate_succ_apply]
    have h2 : applyCel 1 v = (v + 1) % 256 := applyCel_one v
    rw [h2]
    rw [ih ((v + 1) % 256) (Nat.mod_lt _ (by norm_num))]
    omega

/-- Iterating the unit decrement. -/
theorem applyCel_neg_one_iter (k v : Nat) (h : v < 256) :
    (fun x => applyCel (-1) x)^[k] v = (v + 255 * k) % 256 := by
  induction k generalizing v with
  | zero => simpa using (Nat.mod_eq_of_lt h).symm
  | succ k ih =>
    rw [Function.iterate_succ_apply]
    have h2 : applyCel (-1) v = (v + 255) % 256 := applyCel_neg_one v
    rw [h2]
    rw [ih ((v + 255) % 256) (Nat.mod_lt _ (by norm_num))]
    omega

/-- C8: executing CellDelta(n) leaves the current cell at (v + n) mod 256,
wrapping in both directions regardless of the magnitude of n, and the result
matches applying |n| single-step unit deltas one at a time. -/
theorem celDelta_mod_256 (n : Int) (v : Nat) (h : v < 256) :
    applyCel n v = (((v : Int) + n) % 256).toNat ∧
    applyCel n v = (if 0 ≤ n then (fun x => applyCel 1 x)^[n.natAbs] v
                    else (fun x => applyCel (-1) x)^[n.natAbs] v) := by
  refine ⟨applyCel_mod n v, ?_⟩
  by_cases hn : 0 ≤ n
  · rw [if_pos hn, applyCel_one_iter _ _ h, applyCel_mod]
    omega
  · rw [if_neg hn, applyCel_neg_one_iter _ _ h, applyCel_mod]
    omega

/-- Witness for celDelta_mod_256: incrementing a cell at 255 wraps to 0. -/
theorem celDelta_mod_256_witness :
    (255 : Nat) < 256 ∧
    (applyCel 1 255 = (((255 : Int) + 1) % 256).toNat ∧
     applyCel 1 255 = (if (0 : Int) ≤ 1 then (fun x => applyCel 1 x)^[(1 : Int).natAbs] 255
                       else (fun x => applyCel (-1) x)^[(1 : Int).natAbs] 255)) :=
  ⟨by norm_num, celDelta_mod_256 1 255 (by norm_num)⟩

/-! ### Concrete sources used by the claims -/

/-- Source whose fused stream ends with a leftward move past the start while
the pointer is non-zero. -/
def srcPtrUnderflow : String := ">+<<"

/-- Source whose lexed stream moves right then left; fusion collapses it to a
zero move. -/
def srcMovRoundTrip : String := "><"

/-- Source consisting of a single closing bracket. -/
def srcLoopEndOnly : String := "]"

/-- Source consisting of a single opening bracket. -/
def srcLoopStartOnly : String := "["

/-- Straight-line sample source. -/
def srcPlusDot : String := "+."

/-- C1 (code bug): running the compiled form of ">+<<" ends with the tape
grown on the left by one zero cell but the pointer still at 1; the executor
never repositions the pointer after a leftward underflow (src/main.rs line
178 has no pointer assignment), so the pointer does not address the
requested logical cell 0. -/
theorem leftUnderflow_pointer_not_repositioned :
    fuse (lexTokens srcPtrUnderflow) = [.NAN, .MOV 1, .CEL 1, .MOV (-2)] ∧
    find_jumps (fuse (lexTokens srcPtrUnderflow)) = .ok [0, 0, 0, 0] ∧
    run (fuse (lexTokens srcPtrUnderflow)) [0, 0, 0, 0] 4 (initState []) =
      { stack := [0, 0, 1], pointer := 1, idx := 4, input := [], out := [], iter := 4 } ∧
    (run (fuse (lexTokens srcPtrUnderflow)) [0, 0, 0, 0] 4 (initState [])).pointer ≠ 0 := by
  decide

/-- C2 (counterexample): for source "><" the fused stream is [NAN, MOV 0] and
leaves the tape [0], while the unfused primitive stream [MOV 1, MOV -1]
grows the tape to [0, 0]; the final tapes differ, refuting tape-preserving
fusion. -/
theorem fusion_alters_final_tape :
    find_jumps (fuse (lexTokens srcMovRoundTrip)) = .ok [0, 0] ∧
    find_jumps (lexTokens srcMovRoundTrip) = .ok [0, 0] ∧
    (run (fuse (lexTokens srcMovRoundTrip)) [0, 0] 2 (initState [])).stack = [0] ∧
    (run (lexTokens srcMovRoundTrip) [0, 0] 2 (initState [])).stack = [0, 0] ∧
    (run (fuse (lexTokens srcMovRoundTrip)) [0, 0] 2 (initState [])).stack ≠
      (run (lexTokens srcMovRoundTrip) [0, 0] 2 (initState [])).stack := by
  decide

/-- C3 (code bug): the custom PartialEq makes ACC compare unequal to itself,
so the contains check that decides whether input is collected is false for
every token stream, and the executor always receives an empty input queue. -/
theorem input_check_never_true :
    ∀ (ts : List BfToken) (provided : List Nat),
      bfContains ts BfToken.ACC = false ∧ inputUsed ts provided = [] := by
  intro ts provided
  have h : bfContains ts BfToken.ACC = false := by
    rw [bfContains, List.any_eq_false]
    intro y hy
    cases y <;> simp [bfeq]
  exact ⟨h, by simp [inputUsed, h]⟩

/-- C4 (counterexample): compiling the single character "]" does not fail at
index 0: the fused stream keeps the NAN seed at index 0, so the offending
LoopEnd sits at index 1. -/
theorem loopEndOnly_error_index_not_zero :
    (from_source srcLoopEndOnly).2 ≠ .error (.unmatchedLoopEnd 0) := by
  decide

/-- C5 (counterexample): compiling the single character "[" does not leave the
pending LoopStart index list [0]; because of the NAN seed the unmatched
LoopStart sits at index 1 (and the Rust assert itself reports no indices at
all). -/
theorem loopStartOnly_error_not_zero :
    (from_source srcLoopStartOnly).2 ≠ .error (.unclosedLoop [0]) := by
  decide

/-- C5 (amended): for source "[" compilation fails with the unclosed-loop
failure and the pending LoopStart indices at the failure point, in push
order, are exactly [1]. -/
theorem loopStartOnly_error_indices :
    (from_source srcLoopStartOnly).1 = [.NAN, .JUM] ∧
    (from_source srcLoopStartOnly).2 = .error (.unclosedLoop [1]) := by
  decide

/-- C6 (counterexample): the fused form of the empty stream is [NAN], and
fusing it again yields [NAN, NAN], not the same stream. -/
theorem refuse_empty_not_identical :
    fuse ([] : List BfToken) = [.NAN] ∧
    fuse (fuse ([] : List BfToken)) = [.NAN, .NAN] ∧
    fuse (fuse ([] : List BfToken)) ≠ fuse ([] : List BfToken) := by
  decide

/-! ### Characterizing the fusion fold -/

/-- Unfolding the Rust fusion fold over a non-empty accumulator: the part of
the accumulator below the last element is frozen, and fuseAux merges the
last element into the remaining tokens. -/
theorem foldl_fuseRevStep_reverse (ts : List BfToken) :
    ∀ (last : BfToken) (rest : List BfToken),
      (ts.foldl fuseRevStep (last :: rest)).reverse = rest.reverse ++ fuseAux last ts := by
  induction ts with
  | nil => intro last rest; simp [fuseAux]
  | cons t ts ih =>
    intro last rest
    simp only [List.foldl_cons, fuseRevStep]
    by_cases h : bfeq last t
    · simp only [h, if_true, ih, fuseAux]
    · simp only [h, if_false, Bool.false_eq_true, ih, fuseAux]
      simp

/-- The fused stream is the NAN seed followed by the structural run-length
merge of the lexed tokens. -/
theorem fuse_eq_core (ts : List BfToken) : fuse ts = BfToken.NAN :: fuseCore ts := by
  cases ts with
  | nil => rfl
  | cons t ts =>
    have hne : bfeq BfToken.NAN t = false := by cases t <;> rfl
    unfold fuse
    simp only [List.foldl_cons, fuseRevStep, hne, Bool.false_eq_true, if_false]
    rw [foldl_fuseRevStep_reverse]
    rfl

/-- The bfeq class of a merged token is the class of its left argument. -/
theorem bfeq_addToken (x a b : BfToken) : bfeq x (addToken a b) = bfeq x a := by
  cases x <;> cases a <;> cases b <;> rfl

/-- NAN never compares bfeq-equal to anything. -/
theorem bfeq_nan_left (t : BfToken) : bfeq BfToken.NAN t = false := by
  cases t <;> rfl

/-- fuseAux produces a non-empty list whose head has the bfeq class of the
pending token. -/
theorem fuseAux_head (ts : List BfToken) :
    ∀ a : BfToken, ∃ h t2, fuseAux a ts = h :: t2 ∧ ∀ x, bfeq x h = bfeq x a := by
  induction ts with
  | nil => intro a; exact ⟨a, [], rfl, fun x => rfl⟩
  | cons u ts ih =>
    intro a
    by_cases hq : bfeq a u
    · obtain ⟨h, t2, he, hcl⟩ := ih (addToken a u)
      refine ⟨h, t2, ?_, fun x => ?_⟩
      · simp only [fuseAux, hq, if_true, he]
      · rw [hcl, bfeq_addToken]
    · exact ⟨a, fuseAux u ts, by simp only [fuseAux, hq, Bool.false_eq_true, if_false], fun x => rfl⟩

/-- Adjacent tokens of a fuseAux result never compare bfeq-equal. -/
theorem fuseAux_chain (ts : List BfToken) :
    ∀ a : BfToken, List.Chain' (fun x y => bfeq x y = false) (fuseAux a ts) := by
  induction ts with
  | nil => intro a; simp [fuseAux]
  | cons u ts ih =>
    intro a
    by_cases hq : bfeq a u
    · simpa only [fuseAux, hq, if_true] using ih (addToken a u)
    · obtain ⟨h, t2, he, hcl⟩ := fuseAux_head ts u
      simp only [fuseAux, hq, Bool.false_eq_true, if_false, he]
      rw [List.chain'_cons]
      refine ⟨?_, ?_⟩
      · rw [hcl]
        exact Bool.eq_false_iff.mpr hq
      · rw [← he]
        exact ih u

/-- On a stream whose adjacent tokens never compare bfeq-equal, the merge pass
changes nothing. -/
theorem fuseAux_of_chain (ts : List BfToken) :
    ∀ a : BfToken, List.Chain' (fun x y => bfeq x y = false) (a :: ts) →
      fuseAux a ts = a :: ts := by
  induction ts with
  | nil => intro a _; rfl
  | cons u ts ih =>
    intro a hc
    rw [List.chain'_cons] at hc
    have h1 : bfeq a u = false := hc.1
    simp only [fuseAux, h1, Bool.false_eq_true, if_false]
    rw [ih u hc.2]

/-- C6 (amended): applying the fusion pass to an already-fused stream prepends
exactly one extra NAN seed and leaves the rest of the stream unchanged. -/
theorem fuse_fuse_eq_cons_nan (ts : List BfToken) :
    fuse (fuse ts) = BfToken.NAN :: fuse ts := by
  rw [fuse_eq_core ts, fuse_eq_core (BfToken.NAN :: fuseCore ts)]
  show BfToken.NAN :: fuseAux BfToken.NAN (fuseCore ts) = _
  congr 1
  cases hr : fuseCore ts with
  | nil => rfl
  | cons h t2 =>
    apply fuseAux_of_chain
    rw [List.chain'_cons]
    refine ⟨bfeq_nan_left h, ?_⟩
    cases ts with
    | nil => simp [fuseCore] at hr
    | cons t ts2 =>
      have : fuseCore (t :: ts2) = fuseAux t ts2 := rfl
      rw [this] at hr
      rw [← hr]
      exact fuseAux_chain ts2 t

/-! ### The unmatched-LoopEnd failure index -/

/-- The index reported by an unmatched-LoopEnd failure always holds a BAC
token: the failure is raised at the position being scanned. -/
theorem findJumpsAux_unmatched_bac (rest : List BfToken) :
    ∀ (toks : List BfToken) (idx : Nat) (queue jumps : List Nat) (j : Nat),
      toks.drop idx = rest →
      findJumpsAux rest idx queue jumps = .error (.unmatchedLoopEnd j) →
      toks.getD j BfToken.NAN = BfToken.BAC := by
  induction rest with
  | nil =>
    intro toks idx queue jumps j hdrop heq
    simp only [findJumpsAux] at heq
    split at heq <;> simp at heq
  | cons t r ih =>
    intro toks idx queue jumps j hdrop heq
    cases t with
    | JUM =>
      exact ih toks (idx + 1) (idx :: queue) jumps j (drop_succ_of_drop_cons hdrop) heq
    | BAC =>
      cases queue with
      | nil =>
        simp only [findJumpsAux] at heq
        have hj : idx = j := by
          injection heq with h1
          injection h1
        subst hj
        exact getD_of_drop_cons hdrop _
      | cons temp qr =>
        exact ih toks (idx + 1) qr ((jumps.set temp idx).set idx temp) j
          (drop_succ_of_drop_cons hdrop) heq
    | CEL n => exact ih toks (idx + 1) queue jumps j (drop_succ_of_drop_cons hdrop) heq
    | MOV n => exact ih toks (idx + 1) queue jumps j (drop_succ_of_drop_cons hdrop) heq
    | ACC => exact ih toks (idx + 1) queue jumps j (drop_succ_of_drop_cons hdrop) heq
    | OUT => exact ih toks (idx + 1) queue jumps j (drop_succ_of_drop_cons hdrop) heq
    | NAN => exact ih toks (idx + 1) queue jumps j (drop_succ_of_drop_cons hdrop) heq

/-- C4 (amended): compiling "]" fails with UnmatchedLoopEnd(1) — the NAN seed
of the fusion fold occupies index 0, so the offending LoopEnd sits at index
1 — and in general the index reported by an unmatched-LoopEnd failure is
exactly the index of the offending LoopEnd in the compiled stream. -/
theorem loopEnd_error_at_own_index :
    (from_source srcLoopEndOnly).2 = .error (.unmatchedLoopEnd 1) ∧
    ∀ (toks : List BfToken) (j : Nat),
      find_jumps toks = .error (.unmatchedLoopEnd j) →
      toks.getD j BfToken.NAN = BfToken.BAC := by
  refine ⟨by decide, ?_⟩
  intro toks j h
  exact findJumpsAux_unmatched_bac toks toks 0 [] (List.replicate toks.length 0) j rfl h

/-- Witness for loopEnd_error_at_own_index: the stream [BAC] fails at index 0,
which indeed holds the BAC. -/
theorem loopEnd_error_at_own_index_witness :
    [BfToken.BAC].getD 0 BfToken.NAN = BfToken.BAC :=
  loopEnd_error_at_own_index.2 [BfToken.BAC] 0 (by decide)

/-! ### Pointer bounds invariant -/

/-- Applying any single token keeps the pointer strictly inside the
materialized tape. -/
theorem execTok_pointer_lt (jumps : List Nat) (t : BfToken) (s : BfState)
    (h : s.pointer < s.stack.length) :
    (execTok jumps t s).pointer < (execTok jumps t s).stack.length := by
  cases t with
  | MOV n =>
    simp only [execTok]
    by_cases hn : 0 < n
    · simp only [hn, if_true]
      by_cases hlen : s.stack.length ≤ s.pointer + n.toNat
      · simp only [hlen, if_true, List.length_append, List.length_replicate]
        omega
      · simp only [hlen, if_false]
        omega
    · simp only [hn, if_false]
      by_cases hm : n.natAbs ≤ s.pointer
      · simp only [hm, if_true]
        omega
      · simp only [hm, if_false, List.length_append, List.length_replicate]
        omega
  | CEL n => simpa [execTok] using h
  | JUM =>
    simp only [execTok]
    split <;> exact h
  | BAC =>
    simp only [execTok]
    split <;> exact h
  | ACC => simpa [execTok] using h
  | OUT => simpa [execTok] using h
  | NAN => simpa [execTok] using h

/-- One executor loop iteration keeps the pointer strictly inside the tape. -/
theorem step_pointer_lt (toks : List BfToken) (jumps : List Nat) (s : BfState)
    (h : s.pointer < s.stack.length) :
    (step toks jumps s).pointer < (step toks jumps s).stack.length := by
  simpa [step] using execTok_pointer_lt jumps (toks.getD s.idx .NAN) s h

/-- C9: starting from any state whose pointer indexes a materialized tape
cell (as the initial state does), every executor step — pointer movement in
either direction, cell arithmetic, loops, input, output — preserves that
invariant, so after each instruction the pointer lies within
[0, tape length). -/
theorem pointer_in_bounds (toks : List BfToken) (jumps : List Nat) (fuel : Nat) (s : BfState)
    (h : s.pointer < s.stack.length) :
    (step toks jumps s).pointer < (step toks jumps s).stack.length ∧
    (run toks jumps fuel s).pointer < (run toks jumps fuel s).stack.length := by
  refine ⟨step_pointer_lt toks jumps s h, ?_⟩
  induction fuel generalizing s with
  | zero => exact h
  | succ fuel ih =>
    rw [run]
    split
    · exact ih (step toks jumps s) (step_pointer_lt toks jumps s h)
    · exact h

/-- Witness for pointer_in_bounds on the compiled form of ">+<<" from the
initial state. -/
theorem pointer_in_bounds_witness :
    (initState []).pointer < (initState []).stack.length ∧
    ((step [.NAN, .MOV 1, .CEL 1, .MOV (-2)] [0, 0, 0, 0] (initState [])).pointer <
        (step [.NAN, .MOV 1, .CEL 1, .MOV (-2)] [0, 0, 0, 0] (initState [])).stack.length ∧
      (run [.NAN, .MOV 1, .CEL 1, .MOV (-2)] [0, 0, 0, 0] 4 (initState [])).pointer <
        (run [.NAN, .MOV 1, .CEL 1, .MOV (-2)] [0, 0, 0, 0] 4 (initState [])).stack.length) :=
  ⟨by decide, pointer_in_bounds [.NAN, .MOV 1, .CEL 1, .MOV (-2)] [0, 0, 0, 0] 4
    (initState []) (by decide)⟩

/-! ### The iteration counter and MAX_ITER -/

/-- The state with its iteration counter replaced. -/
def withIter (s : BfState) (k : Nat) : BfState :=
  { s with iter := k }

/-- The observable part of the state: everything except the iteration
counter. -/
def dropIter (s : BfState) : List Nat × Nat × Nat × List Nat × List Nat :=
  (s.stack, s.pointer, s.idx, s.input, s.out)

/-- Applying a token commutes with replacing the iteration counter. -/
theorem execTok_withIter (jumps : List Nat) (t : BfToken) (s : BfState) (k : Nat) :
    execTok jumps t (withIter s k) = withIter (execTok jumps t s) k := by
  cases t <;> simp only [execTok, withIter] <;> (try split_ifs) <;> rfl

/-- One loop iteration commutes with replacing the iteration counter. -/
theorem step_withIter (toks : List BfToken) (jumps : List Nat) (s : BfState) (k : Nat) :
    step toks jumps (withIter s k) = withIter (step toks jumps s) (k + 1) := by
  simp only [step]
  rw [show (withIter s k).idx = s.idx from rfl, execTok_withIter]
  rfl

/-- The executor's observable behaviour does not depend on the iteration
counter. -/
theorem run_withIter (toks : List BfToken) (jumps : List Nat) :
    ∀ (fuel : Nat) (s : BfState) (k : Nat),
      dropIter (run toks jumps fuel (withIter s k)) = dropIter (run toks jumps fuel s) := by
  intro fuel
  induction fuel with
  | zero => intro s k; rfl
  | succ fuel ih =>
    intro s k
    rw [run, run]
    by_cases h : s.idx < toks.length
    · rw [if_pos (show (withIter s k).idx < toks.length from h), if_pos h, step_withIter]
      exact ih (step toks jumps s) (k + 1)
    · rw [if_neg (show ¬ (withIter s k).idx < toks.length from h), if_neg h]
      rfl

/-- C10: the iteration counter is purely diagnostic and MAX_ITER is never
consulted: running with the counter already beyond MAX_ITER produces the
same observable state, stepping continues exactly while the instruction
index is below the stream length, and the loop exits exactly when the index
reaches or passes the end. -/
theorem max_iter_never_consulted (toks : List BfToken) (jumps : List Nat) (fuel k : Nat)
    (s : BfState) :
    dropIter (run toks jumps fuel (withIter s (MAX_ITER + k))) =
      dropIter (run toks jumps fuel s) ∧
    (s.idx < toks.length → run toks jumps (fuel + 1) s = run toks jumps fuel (step toks jumps s)) ∧
    (toks.length ≤ s.idx → run toks jumps (fuel + 1) s = s) := by
  refine ⟨run_withIter toks jumps fuel s (MAX_ITER + k), ?_, ?_⟩
  · intro h
    rw [run, if_pos h]
  · intro h
    rw [run, if_neg (Nat.not_lt.mpr h)]

/-- Witness for max_iter_never_consulted on a one-instruction program. -/
theorem max_iter_never_consulted_witness :
    dropIter (run [BfToken.CEL 1] [0] 1 (withIter (initState []) (MAX_ITER + 5))) =
      dropIter (run [BfToken.CEL 1] [0] 1 (initState [])) ∧
    ((initState []).idx < [BfToken.CEL 1].length ∧
      run [BfToken.CEL 1] [0] 2 (initState []) =
        run [BfToken.CEL 1] [0] 1 (step [BfToken.CEL 1] [0] (initState []))) ∧
    ([BfToken.CEL 1].length ≤ 5 ∧
      run [BfToken.CEL 1] [0] 1 { initState [] with idx := 5 } =
        { initState [] with idx := 5 }) :=
  ⟨(max_iter_never_consulted [BfToken.CEL 1] [0] 1 5 (initState [])).1,
   ⟨by decide, (max_iter_never_consulted [BfToken.CEL 1] [0] 1 5 (initState [])).2.1 (by decide)⟩,
   ⟨by decide, (max_iter_never_consulted [BfToken.CEL 1] [0] 0 0
      { initState [] with idx := 5 }).2.2 (by decide)⟩⟩

/-! ### Correctness of the jump table -/

/-- Setting one index leaves getD at other indices unchanged. -/
theorem getD_set_ne {α : Type} (l : List α) {i j : Nat} (x d : α) (h : i ≠ j) :
    (l.set i x).getD j d = l.getD j d := by
  simp [List.getD_eq_getElem?_getD, List.getElem?_set_ne h]

/-- Setting an in-range index updates getD there. -/
theorem getD_set_self {α : Type} (l : List α) {i : Nat} (x d : α) (h : i < l.length) :
    (l.set i x).getD i d = x := by
  simp [List.getD_eq_getElem?_getD, List.getElem?_set_eq_of_lt x h]

/-- An index where getD differs from the default is in range. -/
theorem lt_length_of_getD_ne {α : Type} {l : List α} {i : Nat} {d : α}
    (h : l.getD i d ≠ d) : i < l.length := by
  by_contra hc
  exact h (List.getD_eq_default l d (Nat.le_of_not_lt hc))

/-- Invariant carried through the bracket-resolution pass: every LoopStart
position strictly before the scan point that is no longer pending has been
written as one half of a properly oriented pair. -/
def Matched (toks : List BfToken) (idx : Nat) (queue : List Nat) (jumps : List Nat) : Prop :=
  ∀ p, p < idx → toks.getD p BfToken.NAN = BfToken.JUM → p ∉ queue →
    ∃ m, jumps.getD p 0 = m ∧ p < m ∧ m < idx ∧
      toks.getD m BfToken.NAN = BfToken.BAC ∧ jumps.getD m 0 = p

/-- Bumping the scan point preserves the pending-stack facts. -/
theorem qinv_bump {toks : List BfToken} {idx : Nat} {queue : List Nat}
    (hq : ∀ e ∈ queue, e < idx ∧ toks.getD e BfToken.NAN = BfToken.JUM) :
    ∀ e ∈ queue, e < idx + 1 ∧ toks.getD e BfToken.NAN = BfToken.JUM :=
  fun e he => ⟨Nat.lt_succ_of_lt (hq e he).1, (hq e he).2⟩

/-- Scanning past a non-LoopStart token preserves the Matched invariant. -/
theorem matched_bump {toks : List BfToken} {idx : Nat} {queue jumps : List Nat} {t : BfToken}
    (htidx : toks.getD idx BfToken.NAN = t) (hne : t ≠ BfToken.JUM)
    (hm : Matched toks idx queue jumps) : Matched toks (idx + 1) queue jumps := by
  intro q h1 h2 h3
  by_cases hqidx : q = idx
  · subst hqidx
    rw [htidx] at h2
    exact absurd h2 hne
  · have hqlt : q < idx := by omega
    obtain ⟨m, k1, k2, k3, k4, k5⟩ := hm q hqlt h2 h3
    exact ⟨m, k1, k2, Nat.lt_succ_of_lt k3, k4, k5⟩

/-- Main invariant of the bracket-resolution pass: on success every LoopStart
position of the whole stream is paired with a strictly later BAC position,
the written entries pointing at each other. -/
theorem findJumpsAux_ok_spec (rest : List BfToken) :
    ∀ (toks : List BfToken) (idx : Nat) (queue jumps result : List Nat),
      toks.drop idx = rest →
      jumps.length = toks.length →
      (∀ e ∈ queue, e < idx ∧ toks.getD e BfToken.NAN = BfToken.JUM) →
      Matched toks idx queue jumps →
      findJumpsAux rest idx queue jumps = .ok result →
      ∀ p, toks.getD p BfToken.NAN = BfToken.JUM →
        ∃ m, result.getD p 0 = m ∧ p < m ∧ m < toks.length ∧
          toks.getD m BfToken.NAN = BfToken.BAC ∧ result.getD m 0 = p := by
  induction rest with
  | nil =>
    intro toks idx queue jumps result hdrop hlen hq hm heq p hp
    cases queue with
    | cons a as => exact Except.noConfusion heq
    | nil =>
      have heq2 : (Except.ok jumps : Except JumpError (List Nat)) = Except.ok result := heq
      injection heq2 with heq1
      subst heq1
      have hplen : p < toks.length := lt_length_of_getD_ne (by rw [hp]; decide)
      have hidx : toks.length ≤ idx := by
        have hlen2 := congrArg List.length hdrop
        simp only [List.length_drop, List.length_nil] at hlen2
        omega
      obtain ⟨m, h1, h2, h3, h4, h5⟩ :=
        hm p (Nat.lt_of_lt_of_le hplen hidx) hp (List.not_mem_nil p)
      have hmlen : m < toks.length := lt_length_of_getD_ne (by rw [h4]; decide)
      exact ⟨m, h1, h2, hmlen, h4, h5⟩
  | cons t r ih =>
    intro toks idx queue jumps result hdrop hlen hq hm heq p hp
    have hdrop1 := drop_succ_of_drop_cons hdrop
    have htidx : toks.getD idx BfToken.NAN = t := getD_of_drop_cons hdrop _
    have hidxlen : idx < toks.length := lt_length_of_drop_cons hdrop
    cases t with
    | JUM =>
      refine ih toks (idx + 1) (idx :: queue) jumps result hdrop1 hlen ?_ ?_ heq p hp
      · intro e he
        rcases List.mem_cons.mp he with rfl | he2
        · exact ⟨Nat.lt_succ_self _, htidx⟩
        · exact ⟨Nat.lt_succ_of_lt (hq e he2).1, (hq e he2).2⟩
      · intro q h1 h2 h3
        have hqne : q ≠ idx := fun hcc => h3 (hcc ▸ List.mem_cons_self _ _)
        have hqlt : q < idx := by omega
        obtain ⟨m, k1, k2, k3, k4, k5⟩ :=
          hm q hqlt h2 (fun hc => h3 (List.mem_cons_of_mem _ hc))
        exact ⟨m, k1, k2, Nat.lt_succ_of_lt k3, k4, k5⟩
    | BAC =>
      cases queue with
      | nil => exact Except.noConfusion heq
      | cons temp qr =>
        obtain ⟨htemplt, htempjum⟩ := hq temp (List.mem_cons_self _ _)
        have htempne : temp ≠ idx := Nat.ne_of_lt htemplt
        have htemplen : temp < toks.length := lt_length_of_getD_ne (by rw [htempjum]; decide)
        refine ih toks (idx + 1) qr ((jumps.set temp idx).set idx temp) result hdrop1
          (by simp [List.length_set, hlen]) ?_ ?_ heq p hp
        · intro e he
          exact ⟨Nat.lt_succ_of_lt (hq e (List.mem_cons_of_mem _ he)).1,
            (hq e (List.mem_cons_of_mem _ he)).2⟩
        · intro q h1 h2 h3
          by_cases hqt : q = temp
          · subst hqt
            refine ⟨idx, ?_, htemplt, Nat.lt_succ_self _, htidx, ?_⟩
            · rw [getD_set_ne _ _ _ (Ne.symm htempne)]
              rw [getD_set_self _ _ _ (show q < jumps.length by rw [hlen]; exact htemplen)]
            · rw [getD_set_self _ _ _
                (show idx < (jumps.set q idx).length by
                  rw [List.length_set, hlen]; exact hidxlen)]
          · by_cases hqidx : q = idx
            · subst hqidx
              rw [htidx] at h2
              exact BfToken.noConfusion h2
            · have hqlt : q < idx := by omega
              obtain ⟨m, k1, k2, k3, k4, k5⟩ :=
                hm q hqlt h2 (fun hc => (List.mem_cons.mp hc).elim hqt h3)
              have hmne1 : m ≠ temp := by
                intro hcc
                rw [hcc, htempjum] at k4
                exact BfToken.noConfusion k4
              have hmne2 : m ≠ idx := Nat.ne_of_lt k3
              refine ⟨m, ?_, k2, Nat.lt_succ_of_lt k3, k4, ?_⟩
              · rw [getD_set_ne _ _ _ (Ne.symm hqidx), getD_set_ne _ _ _ (Ne.symm hqt), k1]
              · rw [getD_set_ne _ _ _ (Ne.symm hmne2), getD_set_ne _ _ _ (Ne.symm hmne1), k5]
    | CEL n =>
      exact ih toks (idx + 1) queue jumps result hdrop1 hlen (qinv_bump hq)
        (matched_bump htidx (fun hcc => BfToken.noConfusion hcc) hm) heq p hp
    | MOV n =>
      exact ih toks (idx + 1) queue jumps result hdrop1 hlen (qinv_bump hq)
        (matched_bump htidx (fun hcc => BfToken.noConfusion hcc) hm) heq p hp
    | ACC =>
      exact ih toks (idx + 1) queue jumps result hdrop1 hlen (qinv_bump hq)
        (matched_bump htidx (fun hcc => BfToken.noConfusion hcc) hm) heq p hp
    | OUT =>
      exact ih toks (idx + 1) queue jumps result hdrop1 hlen (qinv_bump hq)
        (matched_bump htidx (fun hcc => BfToken.noConfusion hcc) hm) heq p hp
    | NAN =>
      exact ih toks (idx + 1) queue jumps result hdrop1 hlen (qinv_bump hq)
        (matched_bump htidx (fun hcc => BfToken.noConfusion hcc) hm) heq p hp

/-- C7: for every stream on which bracket resolution succeeds, every LoopStart
index i is paired with a strictly later LoopEnd index j inside the stream,
with jump_table[i] = j, jump_table[j] = i and hence
jump_table[jump_table[i]] = i. -/
theorem find_jumps_involution (toks : List BfToken) (jumps : List Nat)
    (h : find_jumps toks = .ok jumps) :
    ∀ i, toks.getD i BfToken.NAN = BfToken.JUM →
      ∃ j, jumps.getD i 0 = j ∧ i < j ∧ j < toks.length ∧
        toks.getD j BfToken.NAN = BfToken.BAC ∧ jumps.getD j 0 = i ∧
        jumps.getD (jumps.getD i 0) 0 = i := by
  intro i hi
  obtain ⟨m, h1, h2, h3, h4, h5⟩ :=
    findJumpsAux_ok_spec toks toks 0 [] (List.replicate toks.length 0) jumps rfl
      (by simp) (fun e he => absurd he (List.not_mem_nil e))
      (fun p hp _ _ => absurd hp (Nat.not_lt_zero p)) h i hi
  exact ⟨m, h1, h2, h3, h4, h5, by rw [h1, h5]⟩

/-- Witness for find_jumps_involution on the compiled form of "[]". -/
theorem find_jumps_involution_witness :
    ∃ j, ([0, 2, 1] : List Nat).getD 1 0 = j ∧ 1 < j ∧
      j < ([.NAN, .JUM, .BAC] : List BfToken).length ∧
      ([.NAN, .JUM, .BAC] : List BfToken).getD j BfToken.NAN = BfToken.BAC ∧
      ([0, 2, 1] : List Nat).getD j 0 = 1 ∧
      ([0, 2, 1] : List Nat).getD (([0, 2, 1] : List Nat).getD 1 0) 0 = 1 :=
  find_jumps_involution [.NAN, .JUM, .BAC] [0, 2, 1] (by decide) 1 (by decide)

/-! ### Fusion is behaviour-preserving on movement-free, loop-free streams -/

/-- The observable part of the executor state for straight-line reasoning:
tape, pointer, remaining input and output (not the instruction index or the
iteration counter). -/
structure ObsState where
  stack : List Nat
  pointer : Nat
  input : List Nat
  out : List Nat
deriving DecidableEq

/-- Projection of the executor state onto its observable part. -/
def obs (s : BfState) : ObsState :=
  { stack := s.stack, pointer := s.pointer, input := s.input, out := s.out }

/-- Effect of one token on the observable state, mirroring execTok; JUM and
BAC only modify the instruction index, so their observable effect is the
identity. -/
def effTok : BfToken → ObsState → ObsState
  | .MOV n, o =>
    if 0 < n then
      let m := n.toNat
      let stack := if o.stack.length ≤ o.pointer + m
        then o.stack ++ List.replicate m 0 else o.stack
      { o with stack := stack, pointer := o.pointer + m }
    else
      let m := n.natAbs
      if m ≤ o.pointer then { o with pointer := o.pointer - m }
      else { o with stack := List.replicate (m - o.pointer) 0 ++ o.stack }
  | .CEL n, o => { o with stack := o.stack.set o.pointer (applyCel n (o.stack.getD o.pointer 0)) }
  | .ACC, o => { o with stack := o.stack.set o.pointer (o.input.headD 0), input := o.input.tail }
  | .OUT, o => { o with out := o.out ++ [o.stack.getD o.pointer 0] }
  | _, o => o

/-- Tokens that neither move the pointer nor jump. -/
def Straight : BfToken → Prop
  | .MOV _ => False
  | .JUM => False
  | .BAC => False
  | _ => True

/-- The observable effect of a token application factors through effTok. -/
theorem obs_execTok (jumps : List Nat) (t : BfToken) (s : BfState) :
    obs (execTok jumps t s) = effTok t (obs s) := by
  cases t <;> simp only [execTok, effTok, obs] <;> (try split_ifs) <;> rfl

/-- The observable effect of one loop iteration is the effect of the current
token. -/
theorem obs_step (toks : List BfToken) (jumps : List Nat) (s : BfState) :
    obs (step toks jumps s) = effTok (toks.getD s.idx .NAN) (obs s) :=
  obs_execTok jumps (toks.getD s.idx .NAN) s

/-- Straight tokens do not modify the instruction index. -/
theorem execTok_idx_straight (jumps : List Nat) (t : BfToken) (s : BfState)
    (h : Straight t) : (execTok jumps t s).idx = s.idx := by
  cases t with
  | MOV n => exact h.elim
  | JUM => exact h.elim
  | BAC => exact h.elim
  | CEL n => rfl
  | ACC => rfl
  | OUT => rfl
  | NAN => rfl

/-- A loop iteration on a straight token advances the index by exactly one. -/
theorem step_idx_straight (toks : List BfToken) (jumps : List Nat) (s : BfState)
    (h : Straight (toks.getD s.idx .NAN)) :
    (step toks jumps s).idx = s.idx + 1 := by
  show (execTok jumps (toks.getD s.idx .NAN) s).idx + 1 = s.idx + 1
  rw [execTok_idx_straight jumps _ s h]

/-- On a stream of straight tokens the executor loop is a left fold of the
token effects. -/
theorem run_straight (toks : List BfToken) (jumps : List Nat)
    (hstraight : ∀ t ∈ toks, Straight t) :
    ∀ (rest : List BfToken) (s : BfState), toks.drop s.idx = rest →
      obs (run toks jumps rest.length s) =
        rest.foldl (fun o t => effTok t o) (obs s) := by
  intro rest
  induction rest with
  | nil => intro s _; rfl
  | cons t r ih =>
    intro s hdrop
    have hidx : s.idx < toks.length := lt_length_of_drop_cons hdrop
    have htcur : toks.getD s.idx .NAN = t := getD_of_drop_cons hdrop _
    have hts : Straight t := hstraight t (List.drop_subset s.idx toks (hdrop ▸ List.mem_cons_self t r))
    have hts2 : Straight (toks.getD s.idx BfToken.NAN) := by rw [htcur]; exact hts
    have hdropstep : toks.drop (step toks jumps s).idx = r := by
      rw [step_idx_straight toks jumps s hts2]
      exact drop_succ_of_drop_cons hdrop
    calc obs (run toks jumps (r.length + 1) s)
        = obs (run toks jumps r.length (step toks jumps s)) := by
          simp only [run, if_pos hidx]
      _ = r.foldl (fun o t2 => effTok t2 o) (obs (step toks jumps s)) := ih _ hdropstep
      _ = r.foldl (fun o t2 => effTok t2 o) (effTok t (obs s)) := by rw [obs_step, htcur]
      _ = (t :: r).foldl (fun o t2 => effTok t2 o) (obs s) := by rw [List.foldl_cons]

/-- Two successive CEL effects on a cell compose to the CEL effect of the
summed delta. -/
theorem applyCel_comp (a b : Int) (v : Nat) :
    applyCel b (applyCel a v) = applyCel (a + b) v := by
  rw [applyCel_mod a v, applyCel_mod b, applyCel_mod (a + b) v]
  omega

/-- Two successive CEL effects on the observable state merge into one. -/
theorem effTok_cel_comp (a b : Int) (o : ObsState) :
    effTok (.CEL b) (effTok (.CEL a) o) = effTok (.CEL (a + b)) o := by
  simp only [effTok]
  by_cases h : o.pointer < o.stack.length
  · have hst : (o.stack.set o.pointer (applyCel a (o.stack.getD o.pointer 0))).set o.pointer
        (applyCel b ((o.stack.set o.pointer
          (applyCel a (o.stack.getD o.pointer 0))).getD o.pointer 0)) =
        o.stack.set o.pointer (applyCel (a + b) (o.stack.getD o.pointer 0)) := by
      rw [getD_set_self _ _ _ h, List.set_set, applyCel_comp]
    rw [hst]
  · have hge : o.stack.length ≤ o.pointer := Nat.le_of_not_lt h
    rw [List.set_eq_of_length_le hge, List.set_eq_of_length_le hge,
      List.set_eq_of_length_le hge]

/-- A bfeq match only happens between two CELs or two MOVs. -/
theorem bfeq_eq_true_cases {a b : BfToken} (h : bfeq a b = true) :
    (∃ x y, a = .CEL x ∧ b = .CEL y) ∨ (∃ x y, a = .MOV x ∧ b = .MOV y) := by
  cases a <;> cases b <;>
    first
      | exact Or.inl ⟨_, _, rfl, rfl⟩
      | exact Or.inr ⟨_, _, rfl, rfl⟩
      | exact Bool.noConfusion h

/-- Merging two straight tokens yields a straight token. -/
theorem straight_addToken {a b : BfToken} (ha : Straight a) (hb : Straight b) :
    Straight (addToken a b) := by
  cases a <;> cases b <;> simp_all [addToken, Straight]

/-- The merge pass preserves straightness. -/
theorem straight_fuseAux (ts : List BfToken) :
    ∀ a : BfToken, Straight a → (∀ t ∈ ts, Straight t) →
      ∀ x ∈ fuseAux a ts, Straight x := by
  induction ts with
  | nil =>
    intro a ha _ x hx
    simp only [fuseAux, List.mem_singleton] at hx
    subst hx
    exact ha
  | cons u ts ih =>
    intro a ha hts x hx
    have hu : Straight u := hts u (List.mem_cons_self _ _)
    have htail : ∀ t ∈ ts, Straight t := fun t ht => hts t (List.mem_cons_of_mem _ ht)
    by_cases hq : bfeq a u
    · rw [fuseAux, if_pos hq] at hx
      exact ih (addToken a u) (straight_addToken ha hu) htail x hx
    · rw [fuseAux, if_neg hq] at hx
      rcases List.mem_cons.mp hx with rfl | hx2
      · exact ha
      · exact ih u hu htail x hx2

/-- The fused form of a straight stream is straight (including the NAN seed). -/
theorem straight_fuse {u : List BfToken} (h : ∀ t ∈ u, Straight t) :
    ∀ t ∈ fuse u, Straight t := by
  rw [fuse_eq_core]
  intro t ht
  rcases List.mem_cons.mp ht with rfl | ht2
  · trivial
  · cases u with
    | nil => simp [fuseCore] at ht2
    | cons a us =>
      exact straight_fuseAux us a (h a (List.mem_cons_self _ _))
        (fun t2 ht3 => h t2 (List.mem_cons_of_mem _ ht3)) t ht2

/-- Folding the effects of a merged straight stream equals folding the effects
of the unmerged stream. -/
theorem foldl_eff_fuseAux (ts : List BfToken) :
    ∀ (a : BfToken) (o : ObsState), Straight a → (∀ t ∈ ts, Straight t) →
      (fuseAux a ts).foldl (fun o2 t => effTok t o2) o =
        ts.foldl (fun o2 t => effTok t o2) (effTok a o) := by
  induction ts with
  | nil => intro a o _ _; rfl
  | cons u ts ih =>
    intro a o ha hts
    have hu : Straight u := hts u (List.mem_cons_self _ _)
    have htail : ∀ t ∈ ts, Straight t := fun t ht => hts t (List.mem_cons_of_mem _ ht)
    by_cases hq : bfeq a u
    · rcases bfeq_eq_true_cases hq with ⟨x, y, rfl, rfl⟩ | ⟨x, y, rfl, rfl⟩
      · rw [fuseAux, if_pos hq]
        rw [ih (addToken (.CEL x) (.CEL y)) o (straight_addToken ha hu) htail]
        show ts.foldl (fun o2 t => effTok t o2) (effTok (.CEL (x + y)) o) = _
        rw [List.foldl_cons, ← effTok_cel_comp]
      · exact ha.elim
    · rw [fuseAux, if_neg hq]
      rw [List.foldl_cons, List.foldl_cons]
      exact ih u (effTok a o) hu htail

/-- Lexing a character other than the movement and bracket commands yields a
straight token. -/
theorem straight_charToToken (c : Char) (h1 : c ≠ '<') (h2 : c ≠ '>')
    (h3 : c ≠ '[') (h4 : c ≠ ']') : Straight (charToToken c) := by
  unfold charToToken
  rw [if_neg h2, if_neg h1]
  by_cases g3 : c = '+'
  · rw [if_pos g3]; trivial
  · rw [if_neg g3]
    by_cases g4 : c = '-'
    · rw [if_pos g4]; trivial
    · rw [if_neg g4]
      by_cases g5 : c = '.'
      · rw [if_pos g5]; trivial
      · rw [if_neg g5]
        by_cases g6 : c = ','
        · rw [if_pos g6]; trivial
        · rw [if_neg g6, if_neg h3, if_neg h4]; trivial

/-- Lexing a source without movement or bracket characters yields only
straight tokens. -/
theorem straight_lexTokens (code : String)
    (h : ∀ c ∈ code.toList, c ≠ '<' ∧ c ≠ '>' ∧ c ≠ '[' ∧ c ≠ ']') :
    ∀ t ∈ lexTokens code, Straight t := by
  intro t ht
  rw [lexTokens, List.mem_filterMap] at ht
  obtain ⟨c, hc, hfc⟩ := ht
  obtain ⟨h1, h2, h3, h4⟩ := h c hc
  have hs := straight_charToToken c h1 h2 h3 h4
  have hteq : t = charToToken c := by
    cases hct : charToToken c <;> rw [hct] at hfc <;>
      first
        | exact Option.noConfusion hfc
        | (injection hfc with h5; exact h5.symm)
  rw [hteq]
  exact hs

/-- C2 (amended): for every source string containing none of the characters
<, >, [, ] and every input, executing the fused instruction stream and
executing the unfused (primitive single-magnitude) instruction stream yield
identical output sequences and identical final tapes, whatever jump tables
are supplied (loop-free streams never consult them). -/
theorem fusion_preserving_straightline (code : String) (input : List Nat)
    (jf ju : List Nat)
    (h : ∀ c ∈ code.toList, c ≠ '<' ∧ c ≠ '>' ∧ c ≠ '[' ∧ c ≠ ']') :
    (run (fuse (lexTokens code)) jf (fuse (lexTokens code)).length (initState input)).out =
      (run (lexTokens code) ju (lexTokens code).length (initState input)).out ∧
    (run (fuse (lexTokens code)) jf (fuse (lexTokens code)).length (initState input)).stack =
      (run (lexTokens code) ju (lexTokens code).length (initState input)).stack := by
  have hu := straight_lexTokens code h
  have hf := straight_fuse hu
  have e1 : obs (run (fuse (lexTokens code)) jf (fuse (lexTokens code)).length
        (initState input)) =
      (fuse (lexTokens code)).foldl (fun o t => effTok t o) (obs (initState input)) :=
    run_straight _ jf hf _ (initState input) rfl
  have e2 : obs (run (lexTokens code) ju (lexTokens code).length (initState input)) =
      (lexTokens code).foldl (fun o t => effTok t o) (obs (initState input)) :=
    run_straight _ ju hu _ (initState input) rfl
  have e3 : (fuse (lexTokens code)).foldl (fun o t => effTok t o) (obs (initState input)) =
      (lexTokens code).foldl (fun o t => effTok t o) (obs (initState input)) := by
    rw [fuse_eq_core]
    cases hcase : lexTokens code with
    | nil => rfl
    | cons a us =>
      rw [hcase] at hu
      have ha : Straight a := hu a (List.mem_cons_self _ _)
      have hus : ∀ t ∈ us, Straight t := fun t ht => hu t (List.mem_cons_of_mem _ ht)
      show (fuseAux a us).foldl (fun o t => effTok t o)
          (effTok .NAN (obs (initState input))) = _
      rw [foldl_eff_fuseAux us a _ ha hus, List.foldl_cons]
      rfl
  have e4 := (e1.trans e3).trans e2.symm
  exact ⟨congrArg ObsState.out e4, congrArg ObsState.stack e4⟩

/-- Witness for fusion_preserving_straightline on source "+." with empty
input. -/
theorem fusion_preserving_straightline_witness :
    (∀ c ∈ srcPlusDot.toList, c ≠ '<' ∧ c ≠ '>' ∧ c ≠ '[' ∧ c ≠ ']') ∧
    ((run (fuse (lexTokens srcPlusDot)) [0, 0, 0] (fuse (lexTokens srcPlusDot)).length
          (initState [])).out =
        (run (lexTokens srcPlusDot) [0, 0] (lexTokens srcPlusDot).length (initState [])).out ∧
      (run (fuse (lexTokens srcPlusDot)) [0, 0, 0] (fuse (lexTokens srcPlusDot)).length
          (initState [])).stack =
        (run (lexTokens srcPlusDot) [0, 0] (lexTokens srcPlusDot).length
          (initState [])).stack) :=
  ⟨by decide, fusion_preserving_straightline srcPlusDot [] [0, 0, 0] [0, 0] (by decide)⟩
